import Mathlib

/-!
Verification of the orgize parsing core: shallow embedding of
`Macros::parse` (src/elements/macros.rs), `Clock::parse`
(src/elements/clock.rs) and the `Org` event traversal / rendering
drivers (src/org.rs), together with theorems settling the spec claims.

Strings are embedded as `List Char`; Rust byte indexing is modelled by
character indexing (all grammars involved are ASCII).
-/

namespace Orgize

/-! ### Generic list helpers mirroring the Rust string primitives -/

/-- Whitespace predicate used by Rust `str::trim` / `trim_start`:
`char::is_whitespace`, i.e. the Unicode White_Space property —
`\t`, `\n`, `\x0b` (VT), `\x0c` (FF), `\r`, space, next line, no-break
space, ogham space mark, the en/em-quad… range U+2000–U+200A, line and
paragraph separators, narrow no-break space, medium mathematical space
and ideographic space. -/
def isWhitespaceChar (c : Char) : Bool :=
  c == ' ' || c == '\t' || c == '\n' || c == '\x0b' || c == '\x0c' || c == '\r' ||
  c == '\x85' || c == '\xa0' || c == '\u1680' ||
  ('\u2000' ≤ c && c ≤ '\u200a') ||
  c == '\u2028' || c == '\u2029' || c == '\u202f' || c == '\u205f' || c == '\u3000'

/-- `u8::is_ascii_whitespace`: space, tab, newline, form feed, carriage return. -/
def isAsciiWhitespace (c : Char) : Bool :=
  c == ' ' || c == '\t' || c == '\n' || c == '\x0c' || c == '\r'

/-- `str::trim_start`. -/
def trimLeft (s : List Char) : List Char := s.dropWhile isWhitespaceChar

/-- `str::trim_end`. -/
def trimRight (s : List Char) : List Char :=
  (s.reverse.dropWhile isWhitespaceChar).reverse

/-- `str::trim`. -/
def trimBoth (s : List Char) : List Char := trimRight (trimLeft s)

/-- `memchr::memchr`: index of the first occurrence of `c`. -/
def memchrIdx (c : Char) : List Char → Option Nat
  | [] => none
  | x :: xs => if x == c then some 0 else (memchrIdx c xs).map (· + 1)

/-- nom's `take_until(pat)`: split the input at the first occurrence of
`pat`, returning the text before it and the remainder beginning with
`pat`; `none` when `pat` does not occur. -/
def takeUntil (pat : List Char) : List Char → Option (List Char × List Char)
  | [] => if pat.isPrefixOf [] then some ([], []) else none
  | c :: rest =>
    if pat.isPrefixOf (c :: rest) then some ([], c :: rest)
    else (takeUntil pat rest).map (fun p => (c :: p.1, p.2))

/-! ### Macros (src/elements/macros.rs) -/

/-- `Macros<'a>`: macro name plus optional raw argument text.  The Rust
struct stores `Cow<'a, str>` values; the parser only ever constructs
them from `&str` slices (the borrowed variant), so the text itself is
the whole content. -/
structure Macros where
  name : List Char
  arguments : Option (List Char)
deriving DecidableEq

/-- Character class of nom's `take_while1` in `Macros::parse`:
`c.is_ascii_alphanumeric() || c == '-' || c == '_'`. -/
def isMacrosNameChar (c : Char) : Bool :=
  c.isAlphanum || c == '-' || c == '_'

/-- The terminator sequence `)}}}` searched by `take_until` in
`Macros::parse`. -/
def macrosTerm : List Char := [')', '\x7d', '\x7d', '\x7d']

/-- The opening delimiter of a macro call (three `\x7b` braces). -/
def obrace3 : List Char := ['\x7b', '\x7b', '\x7b']

/-- The closing delimiter of a macro call (three `\x7d` braces). -/
def cbrace3 : List Char := ['\x7d', '\x7d', '\x7d']

/-- Final `tag("}}}")` step of `Macros::parse`, assembling the element
with the unconsumed remainder. -/
def macrosClose (name : List Char) (args : Option (List Char)) (rest2 : List Char) :
    Option (Macros × List Char) :=
  match rest2 with
  | '\x7d' :: '\x7d' :: '\x7d' :: rest3 => some (⟨name, args⟩, rest3)
  | _ => none

/-- `opt(delimited(tag("("), take_until(")}}}"), take(1)))` step of
`Macros::parse`: on any failure inside the group, `opt` backtracks to
the un-advanced input with no arguments; otherwise `take(1)` consumes
the `)` of the terminator, leaving its `}}}` for the closing tag. -/
def macrosArgs (name : List Char) (rest1 : List Char) : Option (Macros × List Char) :=
  match rest1 with
  | '(' :: r2 =>
    match takeUntil macrosTerm r2 with
    | some (a, b) =>
      match b with
      | [] => macrosClose name none rest1
      | _ :: b2 => macrosClose name (some a) b2
    | none => macrosClose name none rest1
  | _ => macrosClose name none rest1

/-- Name step of `Macros::parse`: `take_while1` over the name character
class (failing on an empty run), `verify`-ed to start with an
ASCII-alphabetic character. -/
def macrosName (rest : List Char) : Option (Macros × List Char) :=
  if rest.takeWhile isMacrosNameChar = [] then none
  else if !((rest.takeWhile isMacrosNameChar).head?.any Char.isAlpha) then none
  else macrosArgs (rest.takeWhile isMacrosNameChar) (rest.dropWhile isMacrosNameChar)

/-- `Macros::parse`: `tag("{{{")`, the verified name run, the optional
argument group, then `tag("}}}")`.  Returns the element together with
the unconsumed remainder of the input (nom-style). -/
def macrosParse (input : List Char) : Option (Macros × List Char) :=
  match input with
  | '\x7b' :: '\x7b' :: '\x7b' :: rest => macrosName rest
  | _ => none






/-! ### Timestamps (collaborator sub-grammar, modelled from the spec) -/

/-- Modelled from the spec: the glossary names repeater markers
(recurrence interval) on timestamps, but neither the spec nor the
in-scope sources give their grammar; the modelled `parse_inactive`
below never produces one, so the payload is an uninterpreted raw
text. -/
structure Repeater where
  raw : List Char
deriving DecidableEq

/-- Modelled from the spec: delay markers (scheduling offset), same
status as `Repeater`. -/
structure Delay where
  raw : List Char
deriving DecidableEq

/-- `Datetime` (spec §3): date as (year, month, day), optional time as
(hour, minute). -/
structure Datetime where
  date : Nat × Nat × Nat
  time : Option (Nat × Nat)
deriving DecidableEq

/-- `Timestamp`, restricted to the two inactive forms `parse_inactive`
recognizes (spec §6). -/
inductive Timestamp where
  | inactive (start : Datetime) (repeater : Option Repeater) (delay : Option Delay)
  | inactiveRange (start : Datetime) (stop : Datetime)
      (repeater : Option Repeater) (delay : Option Delay)
deriving DecidableEq

/-- Numeric value of a digit run (most significant first). -/
def digitsToNat (l : List Char) : Nat :=
  l.foldl (fun a c => a * 10 + (c.toNat - 48)) 0

/-- Split a leading run of ASCII digits. -/
def takeDigits (s : List Char) : List Char × List Char :=
  (s.takeWhile Char.isDigit, s.dropWhile Char.isDigit)

/-- Drop leading spaces. -/
def skipSpaces (s : List Char) : List Char := s.dropWhile (· == ' ')

/-- Parse `HH:MM` (one-or-more digits, colon, one-or-more digits). -/
def parseTimePart (s : List Char) : Option ((Nat × Nat) × List Char) :=
  let p := takeDigits s
  if p.1 = [] then none
  else
    match p.2 with
    | ':' :: s2 =>
      let q := takeDigits s2
      if q.1 = [] then none
      else some ((digitsToNat p.1, digitsToNat q.1), q.2)
    | _ => none

/-- Modelled from the spec: the date-time body of an inactive
timestamp, `YYYY-MM-DD [dayname] [HH:MM]` — digit runs for year, month
and day, an optional day-name word, and an optional time of day
(spec §3 value shapes; field order taken from the concrete examples in
spec §8). -/
def parseDatetime (s : List Char) : Option (Datetime × List Char) :=
  let y := takeDigits s
  if y.1 = [] then none
  else
    match y.2 with
    | '-' :: s2 =>
      let m := takeDigits s2
      if m.1 = [] then none
      else
        match m.2 with
        | '-' :: s4 =>
          let d := takeDigits s4
          if d.1 = [] then none
          else
            let s6 := skipSpaces d.2
            let s7 :=
              if s6.head?.any Char.isDigit then s6
              else skipSpaces (s6.dropWhile (fun c => !(c == ' ' || c == ']')))
            if s7.head?.any Char.isDigit then
              match parseTimePart s7 with
              | some (t, s8) =>
                some (⟨(digitsToNat y.1, digitsToNat m.1, digitsToNat d.1), some t⟩, s8)
              | none => none
            else
              some (⟨(digitsToNat y.1, digitsToNat m.1, digitsToNat d.1), none⟩, s7)
        | _ => none
    | _ => none

/-- Modelled from the spec: `timestamp::parse_inactive` (spec §6), a
collaborator whose source is not in scope — recognizes `[date time?]`
and `[date time?]--[date time?]`, returning the value and the
unconsumed remainder (the source returns the equivalent offset).
Repeater/delay markers have no specified grammar and are modelled as
absent. -/
def tsParseInactive (s : List Char) : Option (Timestamp × List Char) :=
  match s with
  | '[' :: s1 =>
    match parseDatetime s1 with
    | some (d1, s2) =>
      match s2 with
      | ']' :: s3 =>
        match s3 with
        | '-' :: '-' :: '[' :: s4 =>
          match parseDatetime s4 with
          | some (d2, s5) =>
            match s5 with
            | ']' :: s6 => some (.inactiveRange d1 d2 none none, s6)
            | _ => none
          | none => none
        | _ => some (.inactive d1 none none, s3)
      | _ => none
    | none => none
  | _ => none

/-! ### Clock (src/elements/clock.rs) -/

/-- `Clock<'a>`: closed or running clock entry. -/
inductive Clock where
  | closed (start stop : Datetime) (repeater : Option Repeater)
      (delay : Option Delay) (duration : List Char)
  | running (start : Datetime) (repeater : Option Repeater) (delay : Option Delay)
deriving DecidableEq

/-- First step of `Clock::parse`: isolate the first line — up to the
first `\n` (consuming it) or the whole input — `trim` it, and record
the consumed length. -/
def clockLineOf (s : List Char) : List Char × Nat :=
  match memchrIdx '\n' s with
  | some i => (trimBoth (s.take i), i + 1)
  | none => (trimBoth s, s.length)

/-- The duration validation of `Clock::parse` (clock.rs lines 49–54):
find the first `:`, and accept when everything before the colon is a
digit (vacuously so for an empty hour part), the colon sits exactly
three characters before the end, and the two characters after the colon
are digits.  `duration.len() - 3` is truncated natural subtraction;
Rust release builds wrap instead, but the wrapped value can never equal
`colon`, and here the out-of-range character lookups reject in exactly
the same cases. -/
def durationCheck (dur : List Char) : Option (List Char) :=
  match memchrIdx ':' dur with
  | some colon =>
    if (dur.take colon).all Char.isDigit
        && colon == dur.length - 3
        && (dur[colon + 1]?).any Char.isDigit
        && (dur[colon + 2]?).any Char.isDigit
    then some dur else none
  | none => none

/-- Outcome of a modelled Rust computation that may panic: `panic`
marks an input on which the source code aborts (an out-of-bounds slice
index), `fail` a clean non-match (`None`), `ok` a produced value. -/
inductive ParseOutcome (α : Type) where
  | panic
  | fail
  | ok (a : α)
deriving DecidableEq

/-- The `=> duration` suffix step of `Clock::parse` (clock.rs lines
47–48 plus the validation): if the trailing text starts with `=>`, the
candidate duration is `&tail[3..]` — the text after `=>` *and one more
character* — trimmed, then validated by `durationCheck`.  When the
trailing text is exactly `=>` (two characters), `&tail[3..]` is an
out-of-bounds byte index and the Rust code panics in every build mode;
this is modelled as `panic`.  (Byte index 3 would also panic by
splitting a multi-byte character; byte-level slicing is outside this
char-level model, which is faithful on ASCII.) -/
def parseClosedSuffix (t : List Char) : ParseOutcome (List Char) :=
  match t with
  | '=' :: '>' :: [] => .panic
  | '=' :: '>' :: _ :: rest =>
    match durationCheck (trimBoth rest) with
    | some d => .ok d
    | none => .fail
  | _ => .fail

/-- `Clock::parse` on the isolated, trimmed line after the `CLOCK:`
token: the remainder must start with `[`; an inactive range followed
by a valid `=>` duration yields `Closed`, a single inactive timestamp
followed by only whitespace yields `Running`; a panic in the duration
suffix propagates. -/
def clockParseTail (tail : List Char) : ParseOutcome Clock :=
  if tail.head? = some '[' then
    match tsParseInactive tail with
    | some (.inactiveRange d1 d2 rep del, rest) =>
      match parseClosedSuffix (trimLeft rest) with
      | .ok dur => .ok (.closed d1 d2 rep del dur)
      | .panic => .panic
      | .fail => .fail
    | some (.inactive d rep del, rest) =>
      if (trimLeft rest).all isAsciiWhitespace then .ok (.running d rep del)
      else .fail
    | none => .fail
  else .fail

/-- `Clock::parse` on the trimmed first line: the first space must be
preceded by exactly the text `CLOCK:` (so the line starts with
`CLOCK:` followed by a space); the rest of the line, with leading
whitespace stripped, is handed to `clockParseTail`. -/
def clockParseLine (line : List Char) : ParseOutcome Clock :=
  match memchrIdx ' ' line with
  | some i =>
    if line.take i = ['C', 'L', 'O', 'C', 'K', ':'] then
      clockParseTail (trimLeft (line.drop i))
    else .fail
  | none => .fail

/-- `Clock::parse`, full behaviour: isolate and trim the first line,
match it, and return the element together with the consumed length
(through the first newline, or the whole input) — or `panic` when the
source code would abort. -/
def clockParseFull (s : List Char) : ParseOutcome (Clock × Nat) :=
  match clockParseLine (clockLineOf s).1 with
  | .ok c => .ok (c, (clockLineOf s).2)
  | .panic => .panic
  | .fail => .fail

/-- The `Option`-valued view of `clockParseFull`: exactly the
successful results of `Clock::parse`.  Both the clean non-match and the
panic input give `none` here; the panic inputs are characterized
separately (they are never successes — the source aborts instead of
returning). -/
def clockParse (s : List Char) : Option (Clock × Nat) :=
  match clockParseFull s with
  | .ok x => some x
  | _ => none





/-! ### Document tree, event traversal and rendering drivers (src/org.rs)

The arena (`indextree::Arena`) and its `NodeId::traverse` iterator are
collaborators whose source is not in scope; following spec §3/§4.1 the
document tree is modelled as a rose tree (acyclic, single root, children
in document order) and `traverse` as the depth-first pre/post event walk
of spec §4.6. -/

/-- A document tree node: an element payload plus ordered children. -/
inductive OrgTree (α : Type) where
  | node (label : α) (children : List (OrgTree α))

/-- `Event<'a, 'b>`: `Start`/`End` traversal events (the `End`
constructor is named `stop` here because `end` is reserved). -/
inductive OrgEvent (α : Type) where
  | start (a : α)
  | stop (a : α)
deriving DecidableEq

mutual

/-- Modelled from the spec: `Org::iter` / `traverse(root)` (spec §4.1,
§4.6) — the depth-first event sequence: a node emits `Start`, then its
children's events in order, then `End`. -/
def traverse {α : Type} : OrgTree α → List (OrgEvent α)
  | .node a cs => OrgEvent.start a :: traverseList cs ++ [OrgEvent.stop a]

/-- Events of a forest, in document order. -/
def traverseList {α : Type} : List (OrgTree α) → List (OrgEvent α)
  | [] => []
  | t :: ts => traverse t ++ traverseList ts

end

mutual

/-- Pre-order node sequence of a tree. -/
def preorder {α : Type} : OrgTree α → List α
  | .node a cs => a :: preorderList cs

/-- Pre-order node sequence of a forest. -/
def preorderList {α : Type} : List (OrgTree α) → List α
  | [] => []
  | t :: ts => preorder t ++ preorderList ts

end

mutual

/-- Post-order node sequence of a tree. -/
def postorder {α : Type} : OrgTree α → List α
  | .node a cs => postorderList cs ++ [a]

/-- Post-order node sequence of a forest. -/
def postorderList {α : Type} : List (OrgTree α) → List α
  | [] => []
  | t :: ts => postorder t ++ postorderList ts

end

/-- Labels of the `Start` events, in order. -/
def startsOf {α : Type} (es : List (OrgEvent α)) : List α :=
  es.filterMap (fun e => match e with | .start a => some a | .stop _ => none)

/-- Labels of the `End` events, in order. -/
def stopsOf {α : Type} (es : List (OrgEvent α)) : List α :=
  es.filterMap (fun e => match e with | .start _ => none | .stop a => some a)

/-- Dyck-path check for Start/End nesting: scan the events keeping the
current depth; `Start` pushes, `End` pops (failing at depth 0), and the
whole sequence must end back at the given depth 0. -/
def balancedFrom {α : Type} : List (OrgEvent α) → Nat → Bool
  | [], d => d == 0
  | .start _ :: es, d => balancedFrom es (d + 1)
  | .stop _ :: es, d =>
    match d with
    | 0 => false
    | d' + 1 => balancedFrom es d'

/-- One handler call of the driving loop in `html_with_handler` /
`org_with_handler`: `Start` events go to `handler.start`, `End` events
to `handler.end`.  A handler method is modelled as a pure function from
the writer state and the element to `Except`: `ok` carries the new
writer state, `error` the propagated failure. -/
def stepHandler {α σ ε : Type} (hs he : σ → α → Except ε σ) (w : σ) :
    OrgEvent α → Except ε σ
  | .start a => hs w a
  | .stop a => he w a

/-- The driving loop shared by `html_with_handler` and
`org_with_handler` (org.rs lines 88–95 and 111–118): feed every event
to the handler in order, returning the first error via `?`, and `ok`
once all events are processed. -/
def foldEvents {α σ ε : Type} (hs he : σ → α → Except ε σ) :
    List (OrgEvent α) → σ → Except ε σ
  | [], w => .ok w
  | e :: es, w =>
    match stepHandler hs he w e with
    | .ok w2 => foldEvents hs he es w2
    | .error err => .error err

/-- Instrumented driving loop, additionally returning the list of
events actually delivered to the handler. -/
def foldEventsTrace {α σ ε : Type} (hs he : σ → α → Except ε σ) :
    List (OrgEvent α) → σ → List (OrgEvent α) × Except ε σ
  | [], w => ([], .ok w)
  | e :: es, w =>
    match stepHandler hs he w e with
    | .ok w2 =>
      let p := foldEventsTrace hs he es w2
      (e :: p.1, p.2)
    | .error err => ([e], .error err)

/-- `Org::html_with_handler`: drive the handler over `self.iter()`'s
events; the tree is taken by shared reference, so it is handed to the
driver as a value and never returned modified. -/
def html_with_handler {α σ ε : Type} (hs he : σ → α → Except ε σ)
    (t : OrgTree α) (w : σ) : Except ε σ :=
  foldEvents hs he (traverse t) w

/-- `Org::org_with_handler`: textually the same driving loop as
`html_with_handler`, over an `OrgHandler` instead of an `HtmlHandler`. -/
def org_with_handler {α σ ε : Type} (hs he : σ → α → Except ε σ)
    (t : OrgTree α) (w : σ) : Except ε σ :=
  foldEvents hs he (traverse t) w

/-! ### Helper lemmas about the string primitives -/

theorem dropWhile_head_not {α : Type} {p : α → Bool} :
    ∀ (l : List α) (y : α), (l.dropWhile p).head? = some y → p y = false := by
  intro l
  induction l with
  | nil => intro y h; simp at h
  | cons c rest ih =>
    intro y h
    by_cases hc : p c
    · rw [List.dropWhile_cons, if_pos hc] at h
      exact ih y h
    · rw [List.dropWhile_cons, if_neg hc] at h
      simp at h
      rw [← h]
      exact Bool.eq_false_iff.mpr hc

theorem takeWhile_append_of {α : Type} {p : α → Bool} :
    ∀ (xs ys : List α), (∀ x ∈ xs, p x = true) →
      (∀ y, ys.head? = some y → p y = false) →
      (xs ++ ys).takeWhile p = xs ∧ (xs ++ ys).dropWhile p = ys := by
  intro xs
  induction xs with
  | nil =>
    intro ys _ h2
    cases ys with
    | nil => simp
    | cons y t =>
      have hy : p y = false := h2 y rfl
      simp [List.takeWhile_cons, List.dropWhile_cons, hy]
  | cons x xs ih =>
    intro ys h1 h2
    have hx : p x = true := h1 x (by simp)
    have := ih ys (fun z hz => h1 z (by simp [hz])) h2
    simp [List.takeWhile_cons, List.dropWhile_cons, hx, this.1, this.2]

theorem takeUntil_sound {pat : List Char} :
    ∀ (s a b : List Char), takeUntil pat s = some (a, b) →
      s = a ++ b ∧ pat <+: b ∧ ∀ i, i < a.length → ¬ pat <+: s.drop i := by
  intro s
  induction s with
  | nil =>
    intro a b h
    unfold takeUntil at h
    split at h
    next hpre =>
      simp at h
      obtain ⟨rfl, rfl⟩ := h
      exact ⟨rfl, List.isPrefixOf_iff_prefix.mp hpre, by simp⟩
    next => simp at h
  | cons c rest ih =>
    intro a b h
    unfold takeUntil at h
    split at h
    next hpre =>
      simp at h
      obtain ⟨rfl, rfl⟩ := h
      exact ⟨rfl, List.isPrefixOf_iff_prefix.mp hpre, by simp⟩
    next hpre =>
      cases htu : takeUntil pat rest with
      | none => rw [htu] at h; simp at h
      | some p =>
        rw [htu] at h
        simp at h
        obtain ⟨rfl, rfl⟩ := h
        obtain ⟨hs, hb, hno⟩ := ih p.1 p.2 htu
        refine ⟨by simp [← hs], hb, ?_⟩
        intro i hi
        cases i with
        | zero =>
          intro hcon
          exact hpre (List.isPrefixOf_iff_prefix.mpr (by simpa using hcon))
        | succ j =>
          intro hcon
          exact hno j (by simpa using hi) (by simpa using hcon)

theorem takeUntil_complete {pat : List Char} :
    ∀ (a b : List Char), pat <+: b →
      (∀ i, i < a.length → ¬ pat <+: (a ++ b).drop i) →
      takeUntil pat (a ++ b) = some (a, b) := by
  intro a
  induction a with
  | nil =>
    intro b hb _
    cases b with
    | nil =>
      have : pat = [] := List.prefix_nil.mp hb
      simp [takeUntil, this]
    | cons y t =>
      show takeUntil pat (y :: t) = _
      unfold takeUntil
      rw [if_pos (List.isPrefixOf_iff_prefix.mpr hb)]
  | cons x a' ih =>
    intro b hb hno
    have h0 : ¬ pat <+: (x :: (a' ++ b)) := by
      have := hno 0 (by simp)
      simpa using this
    show takeUntil pat (x :: (a' ++ b)) = _
    unfold takeUntil
    rw [if_neg (fun hc => h0 (List.isPrefixOf_iff_prefix.mp hc))]
    have hrec := ih b hb (fun i hi => by
      have := hno (i + 1) (by simpa using Nat.succ_lt_succ hi)
      simpa using this)
    rw [hrec]
    simp

theorem prefix_drop_append_right {pat a r : List Char} (i : Nat)
    (h : pat <+: a.drop i) : pat <+: (a ++ r).drop i := by
  rcases Nat.le_total i a.length with hle | hle
  · rw [List.drop_append_of_le_length hle]
    exact h.trans (List.prefix_append _ r)
  · rw [List.drop_of_length_le hle] at h
    have : pat = [] := List.prefix_nil.mp h
    simp [this]

/-! ### Macros: soundness (decomposition of successful parses) -/

theorem macrosClose_sound {name rem : List Char} {args : Option (List Char)}
    {m : Macros} :
    ∀ rest2, macrosClose name args rest2 = some (m, rem) →
      m = ⟨name, args⟩ ∧ rest2 = cbrace3 ++ rem := by
  intro rest2 h
  unfold macrosClose at h
  split at h
  · simp at h
    obtain ⟨rfl, rfl⟩ := h
    exact ⟨rfl, rfl⟩
  · simp at h

theorem macrosArgs_sound {name rem : List Char} {m : Macros} :
    ∀ rest1, macrosArgs name rest1 = some (m, rem) →
      m.name = name ∧
      ((m.arguments = none ∧ rest1 = cbrace3 ++ rem) ∨
       (∃ a, m.arguments = some a ∧
          rest1 = '(' :: (a ++ (macrosTerm ++ rem)) ∧
          ∀ i, i < a.length → ¬ macrosTerm <+: (a ++ (macrosTerm ++ rem)).drop i)) := by
  intro rest1 h
  unfold macrosArgs at h
  split at h
  next r2 =>
    cases htu : takeUntil macrosTerm r2 with
    | none =>
      rw [htu] at h
      simp [macrosClose, cbrace3] at h
    | some p =>
      obtain ⟨a0, b0⟩ := p
      rw [htu] at h
      obtain ⟨hs, hb, hno⟩ := takeUntil_sound r2 a0 b0 htu
      cases b0 with
      | nil => simp [macrosClose, cbrace3] at h
      | cons c b2 =>
        obtain ⟨rfl, hrest⟩ := macrosClose_sound b2 h
        obtain ⟨t, ht⟩ := hb
        have hc : c = ')' ∧ b2 = '\x7d' :: '\x7d' :: '\x7d' :: t := by
          rw [macrosTerm] at ht
          simp at ht
          exact ⟨ht.1.symm, ht.2.symm⟩
        have ht2 : t = rem := by
          have hb2 := hc.2
          rw [hrest] at hb2
          simp [cbrace3] at hb2
          exact hb2.symm
        refine ⟨rfl, Or.inr ⟨a0, rfl, ?_, ?_⟩⟩
        · rw [hs, hc.1, hrest]
          simp [macrosTerm, cbrace3]
        · intro i hi hcon
          refine hno i hi ?_
          rw [hs]
          have hcb : c :: b2 = macrosTerm ++ rem := by
            rw [hc.1, hc.2, ht2, macrosTerm]
            simp
          rw [hcb]
          exact hcon
  next =>
    obtain ⟨rfl, hrest⟩ := macrosClose_sound rest1 h
    exact ⟨rfl, Or.inl ⟨rfl, hrest⟩⟩

theorem macrosName_sound {m : Macros} {rem : List Char} :
    ∀ rest, macrosName rest = some (m, rem) →
      m.name ≠ [] ∧ m.name.all isMacrosNameChar = true ∧
      m.name.head?.any Char.isAlpha = true ∧
      ((m.arguments = none ∧ rest = m.name ++ (cbrace3 ++ rem)) ∨
       (∃ a, m.arguments = some a ∧
          rest = m.name ++ ('(' :: (a ++ (macrosTerm ++ rem))) ∧
          ∀ i, i < a.length → ¬ macrosTerm <+: (a ++ (macrosTerm ++ rem)).drop i)) := by
  intro rest h
  unfold macrosName at h
  split at h
  next => simp at h
  next hne =>
    split at h
    next => simp at h
    next halpha =>
      obtain ⟨hname, hbr⟩ := macrosArgs_sound _ h
      have hall : (rest.takeWhile isMacrosNameChar).all isMacrosNameChar = true :=
        List.all_eq_true.mpr (fun x hx => List.mem_takeWhile_imp hx)
      have hsplit : rest = rest.takeWhile isMacrosNameChar ++ rest.dropWhile isMacrosNameChar :=
        (List.takeWhile_append_dropWhile isMacrosNameChar rest).symm
      rw [hname]
      refine ⟨hne, hall, by simpa using halpha, ?_⟩
      rcases hbr with ⟨hargs, hrest1⟩ | ⟨a, hargs, hrest1, hno⟩
      · exact Or.inl ⟨hargs, hsplit.trans (by rw [hrest1])⟩
      · exact Or.inr ⟨a, hargs, hsplit.trans (by rw [hrest1]), hno⟩

theorem macrosParse_sound {m : Macros} {rem s : List Char}
    (h : macrosParse s = some (m, rem)) :
    m.name ≠ [] ∧ m.name.all isMacrosNameChar = true ∧
    m.name.head?.any Char.isAlpha = true ∧
    ((m.arguments = none ∧ s = obrace3 ++ (m.name ++ (cbrace3 ++ rem))) ∨
     (∃ a, m.arguments = some a ∧
        s = obrace3 ++ (m.name ++ ('(' :: (a ++ (macrosTerm ++ rem)))) ∧
        ∀ i, i < a.length → ¬ macrosTerm <+: (a ++ (macrosTerm ++ rem)).drop i)) := by
  unfold macrosParse at h
  split at h
  next rest =>
    obtain ⟨h1, h2, h3, hbr⟩ := macrosName_sound rest h
    refine ⟨h1, h2, h3, ?_⟩
    rcases hbr with ⟨hargs, hrest⟩ | ⟨a, hargs, hrest, hno⟩
    · exact Or.inl ⟨hargs, by rw [hrest]; simp [obrace3]⟩
    · exact Or.inr ⟨a, hargs, by rw [hrest]; simp [obrace3], hno⟩
  next => simp at h

/-! ### Macros: re-parsing the consumed prefix -/

theorem macrosArgs_reparse_none (name : List Char) :
    macrosArgs name cbrace3 = some (⟨name, none⟩, []) := rfl

theorem macrosArgs_reparse_some (name a : List Char)
    (hno : ∀ i, i < a.length → ¬ macrosTerm <+: (a ++ macrosTerm).drop i) :
    macrosArgs name ('(' :: (a ++ macrosTerm)) = some (⟨name, some a⟩, []) := by
  have htu : takeUntil macrosTerm (a ++ macrosTerm) = some (a, macrosTerm) :=
    takeUntil_complete a macrosTerm (List.prefix_refl _) hno
  have hstep : macrosArgs name ('(' :: (a ++ macrosTerm)) =
      (match takeUntil macrosTerm (a ++ macrosTerm) with
        | some (a', b) =>
          match b with
          | [] => macrosClose name none ('(' :: (a ++ macrosTerm))
          | _ :: b2 => macrosClose name (some a') b2
        | none => macrosClose name none ('(' :: (a ++ macrosTerm))) := rfl
  rw [hstep, htu]
  rfl

theorem macrosName_reparse (name rest1 : List Char)
    (hall : name.all isMacrosNameChar = true)
    (hne : name ≠ [])
    (halpha : name.head?.any Char.isAlpha = true)
    (hhead : ∀ y, rest1.head? = some y → isMacrosNameChar y = false) :
    macrosName (name ++ rest1) = macrosArgs name rest1 := by
  obtain ⟨htw, hdw⟩ := takeWhile_append_of name rest1
    (fun x hx => List.all_eq_true.mp hall x hx) hhead
  unfold macrosName
  rw [htw, hdw, if_neg hne, if_neg (by simp [halpha])]

theorem macrosParse_reparse {m : Macros} {rem s : List Char}
    (h : macrosParse s = some (m, rem)) :
    ∃ pre, s = pre ++ rem ∧ macrosParse pre = some (m, []) := by
  obtain ⟨hne, hall, halpha, hbr⟩ := macrosParse_sound h
  obtain ⟨nm, ar⟩ := m
  simp only at hne hall halpha hbr
  rcases hbr with ⟨hargs, hrest⟩ | ⟨a, hargs, hrest, hno⟩
  · subst hargs
    refine ⟨obrace3 ++ (nm ++ cbrace3), ?_, ?_⟩
    · rw [hrest]
      simp
    · show macrosName (nm ++ cbrace3) = some (⟨nm, none⟩, [])
      rw [macrosName_reparse nm cbrace3 hall hne halpha (by decide)]
      exact macrosArgs_reparse_none nm
  · subst hargs
    refine ⟨obrace3 ++ (nm ++ ('(' :: (a ++ macrosTerm))), ?_, ?_⟩
    · rw [hrest]
      simp
    · show macrosName (nm ++ ('(' :: (a ++ macrosTerm))) = some (⟨nm, some a⟩, [])
      rw [macrosName_reparse nm ('(' :: (a ++ macrosTerm)) hall hne halpha
        (by intro y hy; simp at hy; rw [← hy]; decide)]
      refine macrosArgs_reparse_some nm a ?_
      intro i hi hcon
      refine hno i hi ?_
      have : (a ++ macrosTerm) ++ rem = a ++ (macrosTerm ++ rem) := by simp
      rw [← this]
      exact prefix_drop_append_right i hcon

/-! ### memchr lemmas -/

theorem memchrIdx_sound {c : Char} :
    ∀ (s : List Char) (i : Nat), memchrIdx c s = some i →
      ∃ pre post, s = pre ++ c :: post ∧ pre.length = i ∧ c ∉ pre := by
  intro s
  induction s with
  | nil => intro i h; simp [memchrIdx] at h
  | cons x xs ih =>
    intro i h
    unfold memchrIdx at h
    split at h
    next hx =>
      simp at h
      subst h
      exact ⟨[], xs, by simp [beq_iff_eq.mp hx], rfl, by simp⟩
    next hx =>
      rw [Option.map_eq_some'] at h
      obtain ⟨j, hj, rfl⟩ := h
      obtain ⟨pre, post, hsp, hlen, hmem⟩ := ih j hj
      refine ⟨x :: pre, post, by simp [hsp], by simp [hlen], ?_⟩
      intro hmem2
      rcases List.mem_cons.mp hmem2 with hcx | hcp
      · exact absurd (by simp [hcx] : (x == c) = true) hx
      · exact hmem hcp

theorem memchrIdx_cons (c x : Char) (l : List Char) :
    memchrIdx c (x :: l) = if x == c then some 0 else (memchrIdx c l).map (· + 1) := rfl

theorem memchrIdx_complete {c : Char} :
    ∀ (pre post : List Char), c ∉ pre →
      memchrIdx c (pre ++ c :: post) = some pre.length := by
  intro pre
  induction pre with
  | nil => intro post _; simp [memchrIdx]
  | cons x xs ih =>
    intro post hmem
    have hx : (x == c) = false := by
      simp only [beq_eq_false_iff_ne, ne_eq]
      intro hxc
      exact hmem (by simp [hxc])
    rw [List.cons_append, memchrIdx_cons, if_neg (by simp [hx]),
      ih post (fun hc => hmem (by simp [hc]))]
    simp

/-! ### Clock lemmas -/

theorem clockLineOf_none {s : List Char} (hm : memchrIdx '\n' s = none) :
    clockLineOf s = (trimBoth s, s.length) := by
  unfold clockLineOf
  rw [hm]

theorem clockLineOf_some {s : List Char} {i : Nat} (hm : memchrIdx '\n' s = some i) :
    clockLineOf s = (trimBoth (s.take i), i + 1) := by
  unfold clockLineOf
  rw [hm]

theorem clockLineOf_take (s : List Char) :
    (clockLineOf s).2 ≤ s.length ∧
      clockLineOf (s.take (clockLineOf s).2) = clockLineOf s := by
  cases hm : memchrIdx '\n' s with
  | none =>
    rw [clockLineOf_none hm]
    refine ⟨le_refl _, ?_⟩
    rw [List.take_length, clockLineOf_none hm]
  | some i =>
    obtain ⟨pre, post, hsp, hlen, hmem⟩ := memchrIdx_sound s i hm
    have hle : i + 1 ≤ s.length := by
      rw [hsp, List.length_append]
      simp [← hlen]
    have htake : s.take (i + 1) = pre ++ ['\n'] := by
      rw [hsp, ← hlen, List.take_append]
      simp
    have hm2 : memchrIdx '\n' (s.take (i + 1)) = some i := by
      rw [htake]
      have := memchrIdx_complete pre ([] : List Char) hmem
      simpa [hlen] using this
    have htake2 : (s.take (i + 1)).take i = s.take i := by
      rw [htake, ← hlen, List.take_left, hsp, List.take_left]
    rw [clockLineOf_some hm]
    refine ⟨hle, ?_⟩
    rw [clockLineOf_some hm2, htake2]

theorem clockParse_eq_ok {s : List Char} {c : Clock} {n : Nat} :
    clockParse s = some (c, n) ↔
      clockParseLine (clockLineOf s).1 = .ok c ∧ (clockLineOf s).2 = n := by
  unfold clockParse clockParseFull
  cases h : clockParseLine (clockLineOf s).1 <;> simp [h]

theorem clockParse_take {s : List Char} {c : Clock} {n : Nat}
    (h : clockParse s = some (c, n)) :
    n ≤ s.length ∧ clockParse (s.take n) = some (c, n) := by
  obtain ⟨hle, hstable⟩ := clockLineOf_take s
  rw [clockParse_eq_ok] at h
  obtain ⟨hline, hn⟩ := h
  subst hn
  refine ⟨hle, ?_⟩
  rw [clockParse_eq_ok, hstable]
  exact ⟨hline, rfl⟩

theorem clockParseLine_prefix {line : List Char} {c : Clock}
    (h : clockParseLine line = .ok c) :
    ['C', 'L', 'O', 'C', 'K', ':', ' '] <+: line := by
  unfold clockParseLine at h
  split at h
  next i hm =>
    split at h
    next htake =>
      obtain ⟨pre, post, hsp, hlen, _⟩ := memchrIdx_sound line i hm
      have hpre : pre = ['C', 'L', 'O', 'C', 'K', ':'] := by
        rw [hsp, ← hlen, List.take_left] at htake
        exact htake
      rw [hsp, hpre]
      exact ⟨post, rfl⟩
    next => simp at h
  next => simp at h

/-! ### Duration grammar characterization -/

theorem durationCheck_some {dur : List Char} {colon : Nat}
    (hm : memchrIdx ':' dur = some colon) :
    durationCheck dur =
      if (dur.take colon).all Char.isDigit
          && colon == dur.length - 3
          && (dur[colon + 1]?).any Char.isDigit
          && (dur[colon + 2]?).any Char.isDigit
      then some dur else none := by
  unfold durationCheck
  rw [hm]

theorem durationCheck_iff (dur d : List Char) :
    durationCheck dur = some d ↔
      (d = dur ∧ ∃ hour m1 m2, dur = hour ++ ':' :: [m1, m2] ∧
        hour.all Char.isDigit = true ∧ m1.isDigit = true ∧ m2.isDigit = true) := by
  constructor
  · intro h
    unfold durationCheck at h
    split at h
    next colon hm =>
      split at h
      next hcond =>
        simp only [Bool.and_eq_true] at hcond
        obtain ⟨⟨⟨h1, h2⟩, h3⟩, h4⟩ := hcond
        rw [beq_iff_eq] at h2
        obtain ⟨pre, post, hsp, hlen, _⟩ := memchrIdx_sound dur colon hm
        simp at h
        match post, hsp with
        | [], hsp =>
          rw [hsp, ← hlen, List.getElem?_eq_none (by simp)] at h3
          simp at h3
        | [x], hsp =>
          rw [hsp, ← hlen, List.getElem?_eq_none (by simp)] at h4
          simp at h4
        | x :: y :: post2, hsp =>
          have hlen2 : post2.length = 0 := by
            rw [hsp] at h2
            simp at h2
            omega
          have hpost2 : post2 = [] := List.length_eq_zero.mp hlen2
          subst hpost2
          refine ⟨h.symm, pre, x, y, hsp, ?_, ?_, ?_⟩
          · rw [hsp, ← hlen, List.take_left] at h1
            exact h1
          · rw [hsp, ← hlen,
              List.getElem?_append_right (by omega)] at h3
            simpa using h3
          · rw [hsp, ← hlen,
              List.getElem?_append_right (by omega)] at h4
            simpa using h4
      next => simp at h
    next => simp at h
  · rintro ⟨hdd, hour, m1, m2, hdecomp, hall, hm1, hm2⟩
    rw [hdd]
    have hmem : ':' ∉ hour := by
      intro hmem
      have := List.all_eq_true.mp hall ':' hmem
      simp at this
    have hm : memchrIdx ':' dur = some hour.length := by
      rw [hdecomp]
      exact memchrIdx_complete hour [m1, m2] hmem
    rw [durationCheck_some hm, if_pos]
    simp only [Bool.and_eq_true]
    refine ⟨⟨⟨?_, ?_⟩, ?_⟩, ?_⟩
    · rw [hdecomp, List.take_left]
      exact hall
    · rw [hdecomp]
      simp
    · rw [hdecomp, List.getElem?_append_right (by omega)]
      simpa using hm1
    · rw [hdecomp, List.getElem?_append_right (by omega)]
      simpa using hm2

theorem parseClosedSuffix_ok_iff (t d : List Char) :
    parseClosedSuffix t = .ok d ↔
      (t.take 2 = ['=', '>'] ∧ 3 ≤ t.length ∧
        durationCheck (trimBoth (t.drop 3)) = some d) := by
  constructor
  · intro h
    unfold parseClosedSuffix at h
    split at h
    next => simp at h
    next c rest =>
      cases hd : durationCheck (trimBoth rest) with
      | some d2 =>
        rw [hd] at h
        simp at h
        subst h
        exact ⟨rfl, by simp, hd⟩
      | none =>
        rw [hd] at h
        simp at h
    next => simp at h
  · rintro ⟨htake, hlen, hd⟩
    cases t with
    | nil => simp at htake
    | cons c1 t1 =>
      cases t1 with
      | nil => simp at htake
      | cons c2 t2 =>
        simp at htake
        obtain ⟨rfl, rfl⟩ := htake
        cases t2 with
        | nil => simp at hlen
        | cons c3 t3 =>
          have hstep : parseClosedSuffix ('=' :: '>' :: c3 :: t3) =
              match durationCheck (trimBoth (('=' :: '>' :: c3 :: t3).drop 3)) with
              | some d2 => ParseOutcome.ok d2
              | none => ParseOutcome.fail := rfl
          rw [hstep, hd]

theorem parseClosedSuffix_panic_iff (t : List Char) :
    parseClosedSuffix t = .panic ↔ t = ['=', '>'] := by
  constructor
  · intro h
    unfold parseClosedSuffix at h
    split at h
    next => rfl
    next c rest =>
      cases hd : durationCheck (trimBoth rest) <;> rw [hd] at h <;> simp at h
    next => simp at h
  · rintro rfl
    rfl

theorem clockParseTail_closed {tail : List Char} {d1 d2 : Datetime}
    {rep : Option Repeater} {del : Option Delay} {dur : List Char}
    (h : clockParseTail tail = .ok (.closed d1 d2 rep del dur)) :
    ∃ rest, parseClosedSuffix (trimLeft rest) = .ok dur := by
  unfold clockParseTail at h
  split at h
  next =>
    split at h
    next d1a d2a repa dela rest heq =>
      cases hps : parseClosedSuffix (trimLeft rest) with
      | ok dura =>
        rw [hps] at h
        simp at h
        refine ⟨rest, ?_⟩
        rw [hps, h.2.2.2.2]
      | panic =>
        rw [hps] at h
        simp at h
      | fail =>
        rw [hps] at h
        simp at h
    next d repa dela rest heq =>
      split at h
      · simp at h
      · simp at h
    next => simp at h
  next => simp at h

theorem clockParse_prefix_token {s : List Char} {c : Clock} {n : Nat}
    (h : clockParse s = some (c, n)) :
    ['C', 'L', 'O', 'C', 'K', ':', ' '] <+: (clockLineOf s).1 :=
  clockParseLine_prefix (clockParse_eq_ok.mp h).1

theorem clockParse_closed_shape {s : List Char} {d1 d2 : Datetime}
    {rep : Option Repeater} {del : Option Delay} {dur : List Char} {n : Nat}
    (h : clockParse s = some (.closed d1 d2 rep del dur, n)) :
    ∃ hour m1 m2, dur = hour ++ ':' :: [m1, m2] ∧ hour.all Char.isDigit = true ∧
      m1.isDigit = true ∧ m2.isDigit = true := by
  rw [clockParse_eq_ok] at h
  obtain ⟨hline, -⟩ := h
  unfold clockParseLine at hline
  split at hline
  next i hm =>
    split at hline
    next =>
      obtain ⟨rest, hcs⟩ := clockParseTail_closed hline
      obtain ⟨-, -, hdc⟩ := (parseClosedSuffix_ok_iff _ _).mp hcs
      obtain ⟨hdd, hour, m1, m2, hdecomp, h1, h2, h3⟩ := (durationCheck_iff _ _).mp hdc
      exact ⟨hour, m1, m2, hdd.trans hdecomp, h1, h2, h3⟩
    next => simp at hline
  next => simp at hline

/-! ### Traversal lemmas -/

mutual

theorem startsOf_traverse {α : Type} : ∀ (t : OrgTree α),
    startsOf (traverse t) = preorder t
  | .node a cs => by
    simp only [traverse, preorder, startsOf, List.filterMap_cons, List.filterMap_append]
    have h := startsOf_traverseList cs
    simp only [startsOf] at h
    simp [h]

theorem startsOf_traverseList {α : Type} : ∀ (ts : List (OrgTree α)),
    startsOf (traverseList ts) = preorderList ts
  | [] => rfl
  | t :: ts => by
    simp only [traverseList, preorderList, startsOf, List.filterMap_append]
    have h1 := startsOf_traverse t
    have h2 := startsOf_traverseList ts
    simp only [startsOf] at h1 h2
    rw [h1, h2]

end

mutual

theorem stopsOf_traverse {α : Type} : ∀ (t : OrgTree α),
    stopsOf (traverse t) = postorder t
  | .node a cs => by
    simp only [traverse, postorder, stopsOf, List.filterMap_cons, List.filterMap_append]
    have h := stopsOf_traverseList cs
    simp only [stopsOf] at h
    simp [h]

theorem stopsOf_traverseList {α : Type} : ∀ (ts : List (OrgTree α)),
    stopsOf (traverseList ts) = postorderList ts
  | [] => rfl
  | t :: ts => by
    simp only [traverseList, postorderList, stopsOf, List.filterMap_append]
    have h1 := stopsOf_traverse t
    have h2 := stopsOf_traverseList ts
    simp only [stopsOf] at h1 h2
    rw [h1, h2]

end

mutual

theorem balancedFrom_traverse {α : Type} : ∀ (t : OrgTree α)
    (es : List (OrgEvent α)) (d : Nat),
    balancedFrom (traverse t ++ es) d = balancedFrom es d
  | .node a cs, es, d => by
    show balancedFrom ((OrgEvent.start a :: (traverseList cs ++ [OrgEvent.stop a])) ++ es) d =
      balancedFrom es d
    rw [List.cons_append, List.append_assoc]
    show balancedFrom (traverseList cs ++ ([OrgEvent.stop a] ++ es)) (d + 1) = balancedFrom es d
    rw [balancedFrom_traverseList cs ([OrgEvent.stop a] ++ es) (d + 1)]
    rfl

theorem balancedFrom_traverseList {α : Type} : ∀ (ts : List (OrgTree α))
    (es : List (OrgEvent α)) (d : Nat),
    balancedFrom (traverseList ts ++ es) d = balancedFrom es d
  | [], es, d => rfl
  | t :: ts, es, d => by
    simp only [traverseList, List.append_assoc]
    rw [balancedFrom_traverse t (traverseList ts ++ es) d,
      balancedFrom_traverseList ts es d]

end

/-! ### Rendering driver lemmas -/

theorem foldEvents_error {α σ ε : Type} (hs he : σ → α → Except ε σ)
    (e : OrgEvent α) (es : List (OrgEvent α)) (w : σ) (err : ε)
    (h : stepHandler hs he w e = .error err) :
    foldEvents hs he (e :: es) w = .error err := by
  unfold foldEvents
  rw [h]

theorem foldEventsTrace_prefix {α σ ε : Type} (hs he : σ → α → Except ε σ) :
    ∀ (es : List (OrgEvent α)) (w : σ),
      (foldEventsTrace hs he es w).1 <+: es ∧
      (foldEventsTrace hs he es w).2 = foldEvents hs he es w := by
  intro es
  induction es with
  | nil => intro w; exact ⟨List.nil_prefix, rfl⟩
  | cons e rest ih =>
    intro w
    unfold foldEventsTrace foldEvents
    cases hstep : stepHandler hs he w e with
    | ok w2 =>
      obtain ⟨hpre, hres⟩ := ih w2
      constructor
      · simp only []
        exact List.cons_prefix_cons.mpr ⟨rfl, hpre⟩
      · simpa using hres
    | error err => exact ⟨List.cons_prefix_cons.mpr ⟨rfl, List.nil_prefix⟩, rfl⟩

theorem foldEvents_ok {α σ ε : Type} (hs he : σ → α → Except ε σ)
    (hok1 : ∀ w a, (hs w a).isOk = true) (hok2 : ∀ w a, (he w a).isOk = true) :
    ∀ (es : List (OrgEvent α)) (w : σ), (foldEvents hs he es w).isOk = true := by
  intro es
  induction es with
  | nil => intro w; rfl
  | cons e rest ih =>
    intro w
    unfold foldEvents
    cases hstep : stepHandler hs he w e with
    | ok w2 => exact ih w2
    | error err =>
      exfalso
      cases e with
      | start a =>
        have := hok1 w a
        rw [show hs w a = stepHandler hs he w (OrgEvent.start a) from rfl, hstep] at this
        simp [Except.isOk, Except.toBool] at this
      | stop a =>
        have := hok2 w a
        rw [show he w a = stepHandler hs he w (OrgEvent.stop a) from rfl, hstep] at this
        simp [Except.isOk, Except.toBool] at this

/-! ### Claim theorems -/

/-- C1 (counterexample): on `{{{poem(a)}}}b)}}}` the parse does not scan
to the last `)}}}`: it succeeds with arguments `"a"` (not `"a)}}}b"`)
and leaves the nonempty remainder `"b)}}}"` unconsumed. -/
theorem macros_last_term_cex :
    macrosParse ("\x7b\x7b\x7bpoem(a)\x7d\x7d\x7db)\x7d\x7d\x7d".toList) =
      some (⟨"poem".toList, some "a".toList⟩, "b)\x7d\x7d\x7d".toList) ∧
    "a".toList ≠ "a)\x7d\x7d\x7db".toList ∧
    "b)\x7d\x7d\x7d".toList ≠ ([] : List Char) := by decide

/-- C1 (amended): when `Macros::parse` recognizes an argument list, the
arguments value is the raw text between the first `(` and the FIRST
occurrence of the terminator sequence `)}}}` in the remaining text: the
input decomposes as `{{{name(` ++ args ++ `)}}}` ++ remainder with no
occurrence of `)}}}` inside the argument text. -/
theorem macros_args_first_terminator (s name a rem : List Char)
    (h : macrosParse s = some (⟨name, some a⟩, rem)) :
    s = obrace3 ++ (name ++ ('(' :: (a ++ (macrosTerm ++ rem)))) ∧
    ¬ macrosTerm <:+: a := by
  obtain ⟨-, -, -, hbr⟩ := macrosParse_sound h
  rcases hbr with ⟨hargs, -⟩ | ⟨a', hargs, hrest, hno⟩
  · simp at hargs
  · simp only at hargs hrest hno
    rw [Option.some_inj] at hargs
    subst hargs
    refine ⟨hrest, ?_⟩
    intro hinf
    obtain ⟨u, v, huv⟩ := hinf
    have hlen : a.length = u.length + 4 + v.length := by
      rw [← huv]
      simp [macrosTerm]
      omega
    refine hno u.length (by omega) ?_
    have hre : a ++ (macrosTerm ++ rem) =
        u ++ (macrosTerm ++ (v ++ (macrosTerm ++ rem))) := by
      rw [← huv]
      simp [List.append_assoc]
    rw [hre, List.drop_left]
    exact List.prefix_append _ _

/-- Witness for `macros_args_first_terminator` at the counterexample
input. -/
theorem macros_args_first_terminator_wit :
    "\x7b\x7b\x7bpoem(a)\x7d\x7d\x7db)\x7d\x7d\x7d".toList =
      obrace3 ++ ("poem".toList ++
        ('(' :: ("a".toList ++ (macrosTerm ++ "b)\x7d\x7d\x7d".toList)))) ∧
    ¬ macrosTerm <:+: "a".toList :=
  macros_args_first_terminator ("\x7b\x7b\x7bpoem(a)\x7d\x7d\x7db)\x7d\x7d\x7d".toList)
    "poem".toList "a".toList "b)\x7d\x7d\x7d".toList (by decide)

/-- C2 (counterexample): with no space after `=>`, as in
`CLOCK: [..]--[..] =>1:00`, the parse succeeds as Closed but stores
duration `":00"` (the text three bytes past the start of `=>`,
trimmed), not `"1:00"` — and that accepted duration has an empty hour
part. -/
theorem clock_duration_skip_cex :
    clockParse ("CLOCK: [2003-09-16 Tue 09:39]--[2003-09-16 Tue 10:39] =>1:00".toList) =
      some (.closed ⟨(2003, 9, 16), some (9, 39)⟩ ⟨(2003, 9, 16), some (10, 39)⟩
        none none ":00".toList, 60) ∧
    ":00".toList ≠ "1:00".toList := by decide

/-- C2 (amended): the `=>` suffix of a range clock yields a duration
exactly when at least one character follows `=>` and the text starting
three characters after the beginning of `=>` (skipping `=>` plus one
more character), trimmed, matches hour-part `:` two-digits with the
colon exactly 3 characters before the end — the hour part is all
digits but may be empty; the stored duration is that trimmed text.
When the trailing text is exactly `=>`, the code panics (`&tail[3..]`
is an out-of-bounds byte index on a 2-byte slice) instead of returning;
the panic is reachable from a full `CLOCK:` line.  Every Closed result
of `Clock::parse` carries a duration of the accepted shape. -/
theorem clock_closed_duration_grammar :
    (∀ t d : List Char, parseClosedSuffix t = .ok d ↔
      (t.take 2 = ['=', '>'] ∧ 3 ≤ t.length ∧ d = trimBoth (t.drop 3) ∧
       ∃ hour m1 m2, d = hour ++ ':' :: [m1, m2] ∧ hour.all Char.isDigit = true ∧
         m1.isDigit = true ∧ m2.isDigit = true)) ∧
    (∀ t : List Char, parseClosedSuffix t = .panic ↔ t = ['=', '>']) ∧
    clockParseFull ("CLOCK: [2003-09-16 Tue 09:39]--[2003-09-16 Tue 10:39] =>".toList) =
      .panic ∧
    clockParse ("CLOCK: [2003-09-16 Tue 09:39]--[2003-09-16 Tue 10:39] =>".toList) =
      none ∧
    (∀ (s : List Char) (d1 d2 : Datetime) (rep : Option Repeater)
        (del : Option Delay) (dur : List Char) (n : Nat),
      clockParse s = some (.closed d1 d2 rep del dur, n) →
      ∃ hour m1 m2, dur = hour ++ ':' :: [m1, m2] ∧ hour.all Char.isDigit = true ∧
        m1.isDigit = true ∧ m2.isDigit = true) := by
  refine ⟨?_, parseClosedSuffix_panic_iff, by decide, by decide, ?_⟩
  · intro t d
    rw [parseClosedSuffix_ok_iff]
    constructor
    · rintro ⟨h1, h2, h3⟩
      obtain ⟨hdd, hsh⟩ := (durationCheck_iff _ _).mp h3
      subst hdd
      exact ⟨h1, h2, rfl, hsh⟩
    · rintro ⟨h1, h2, h3, h4⟩
      subst h3
      exact ⟨h1, h2, (durationCheck_iff _ _).mpr ⟨rfl, h4⟩⟩
  · intro s d1 d2 rep del dur n h
    exact clockParse_closed_shape h

/-- Witness for `clock_closed_duration_grammar` at the spec's concrete
closed-clock input. -/
theorem clock_closed_duration_grammar_wit :
    ∃ hour m1 m2, "1:00".toList = hour ++ ':' :: [m1, m2] ∧
      hour.all Char.isDigit = true ∧ m1.isDigit = true ∧ m2.isDigit = true :=
  clock_closed_duration_grammar.2.2.2.2
    ("CLOCK: [2003-09-16 Tue 09:39]--[2003-09-16 Tue 10:39] =>  1:00".toList)
    ⟨(2003, 9, 16), some (9, 39)⟩ ⟨(2003, 9, 16), some (10, 39)⟩
    none none "1:00".toList 62 (by decide)

/-- C3 (counterexample): a line with leading whitespace before `CLOCK:`
is not rejected: `Clock::parse` trims both ends of the first line, so
`" CLOCK: [2003-09-16 Tue 09:39]"` parses as Running consuming all 30
characters. -/
theorem clock_leading_whitespace_cex :
    clockParse (" CLOCK: [2003-09-16 Tue 09:39]".toList) =
      some (.running ⟨(2003, 9, 16), some (9, 39)⟩ none none, 30) := by decide

/-- C3 (amended): `Clock::parse` trims whitespace from BOTH ends of the
first line for matching purposes (so leading whitespace before `CLOCK:`
is accepted, not rejected), while the returned consumed length is the
untrimmed line length (through the newline, or the whole input); the
trimmed line must begin with the literal token `CLOCK:` followed by a
space (its first space must be preceded by exactly `CLOCK:`). -/
theorem clock_prefix_token_required :
    (∀ s : List Char, memchrIdx '\n' s = none →
      clockLineOf s = (trimBoth s, s.length)) ∧
    (∀ (s : List Char) (i : Nat), memchrIdx '\n' s = some i →
      clockLineOf s = (trimBoth (s.take i), i + 1)) ∧
    (∀ (s : List Char) (c : Clock) (n : Nat), clockParse s = some (c, n) →
      ['C', 'L', 'O', 'C', 'K', ':', ' '] <+: (clockLineOf s).1) :=
  ⟨fun _ hm => clockLineOf_none hm,
   fun _ _ hm => clockLineOf_some hm,
   fun _ _ _ h => clockParse_prefix_token h⟩

/-- Witness for `clock_prefix_token_required` at the concrete Running
input. -/
theorem clock_prefix_token_required_wit :
    ['C', 'L', 'O', 'C', 'K', ':', ' '] <+:
      (clockLineOf ("CLOCK: [2003-09-16 Tue 09:39]".toList)).1 :=
  clock_prefix_token_required.2.2 ("CLOCK: [2003-09-16 Tue 09:39]".toList)
    (.running ⟨(2003, 9, 16), some (9, 39)⟩ none none) 29 (by decide)

/-- C4: consumed-length exactness for both concrete parsers: a
successful `Macros::parse` splits its input into the consumed prefix
and the returned remainder, and re-parsing the prefix alone yields the
same element consuming all of it; a successful `Clock::parse` consumes
`n ≤ length` characters and re-parsing the first `n` characters yields
the same element with the same consumed length. -/
theorem parse_consumed_exactness :
    (∀ (s : List Char) (m : Macros) (rem : List Char),
      macrosParse s = some (m, rem) →
      ∃ pre, s = pre ++ rem ∧ macrosParse pre = some (m, [])) ∧
    (∀ (s : List Char) (c : Clock) (n : Nat),
      clockParse s = some (c, n) →
      n ≤ s.length ∧ clockParse (s.take n) = some (c, n)) :=
  ⟨fun _ _ _ h => macrosParse_reparse h, fun _ _ _ h => clockParse_take h⟩

/-- Witness for `parse_consumed_exactness`: both conjuncts applied at
concrete successful parses. -/
theorem parse_consumed_exactness_wit :
    (∃ pre, "\x7b\x7b\x7bpoem(a)\x7d\x7d\x7db)\x7d\x7d\x7d".toList =
        pre ++ "b)\x7d\x7d\x7d".toList ∧
      macrosParse pre = some (⟨"poem".toList, some "a".toList⟩, [])) ∧
    (29 ≤ ("CLOCK: [2003-09-16 Tue 09:39]".toList).length ∧
      clockParse (("CLOCK: [2003-09-16 Tue 09:39]".toList).take 29) =
        some (.running ⟨(2003, 9, 16), some (9, 39)⟩ none none, 29)) :=
  ⟨parse_consumed_exactness.1 ("\x7b\x7b\x7bpoem(a)\x7d\x7d\x7db)\x7d\x7d\x7d".toList)
      ⟨"poem".toList, some "a".toList⟩ ("b)\x7d\x7d\x7d".toList) (by decide),
   parse_consumed_exactness.2 ("CLOCK: [2003-09-16 Tue 09:39]".toList)
      (.running ⟨(2003, 9, 16), some (9, 39)⟩ none none) 29 (by decide)⟩

/-- C5: the two spec round-trip examples: the single-timestamp line
parses to Running with start 2003-09-16 09:39 and no repeater/delay,
consuming all 29 characters; the range line with ` =>  1:00` parses to
Closed with start 09:39, end 10:39, duration exactly `"1:00"`,
consuming all 62 characters. -/
theorem clock_concrete_examples :
    clockParse ("CLOCK: [2003-09-16 Tue 09:39]".toList) =
      some (.running ⟨(2003, 9, 16), some (9, 39)⟩ none none, 29) ∧
    clockParse ("CLOCK: [2003-09-16 Tue 09:39]--[2003-09-16 Tue 10:39] =>  1:00".toList) =
      some (.closed ⟨(2003, 9, 16), some (9, 39)⟩ ⟨(2003, 9, 16), some (10, 39)⟩
        none none "1:00".toList, 62) ∧
    ("CLOCK: [2003-09-16 Tue 09:39]".toList).length = 29 ∧
    ("CLOCK: [2003-09-16 Tue 09:39]--[2003-09-16 Tue 10:39] =>  1:00".toList).length = 62 := by
  decide

/-- C6: the four malformed macro inputs are rejected with no element
produced, and every successful parse has a nonempty name over
`[A-Za-z0-9_-]` whose first character is ASCII-alphabetic. -/
theorem macros_rejection_set :
    macrosParse ("\x7b\x7b\x7b0uthor\x7d\x7d\x7d".toList) = none ∧
    macrosParse ("\x7b\x7b\x7bauthor\x7d\x7d".toList) = none ∧
    macrosParse ("\x7b\x7b\x7bpoem(\x7d\x7d\x7d".toList) = none ∧
    macrosParse ("\x7b\x7b\x7bpoem)\x7d\x7d\x7d".toList) = none ∧
    (∀ (s : List Char) (m : Macros) (rem : List Char),
      macrosParse s = some (m, rem) →
      m.name ≠ [] ∧ m.name.all isMacrosNameChar = true ∧
        m.name.head?.any Char.isAlpha = true) := by
  refine ⟨by decide, by decide, by decide, by decide, ?_⟩
  intro s m rem h
  obtain ⟨h1, h2, h3, -⟩ := macrosParse_sound h
  exact ⟨h1, h2, h3⟩

/-- Witness for `macros_rejection_set` at a concrete successful
parse. -/
theorem macros_rejection_set_wit :
    "poem".toList ≠ [] ∧ ("poem".toList).all isMacrosNameChar = true ∧
      ("poem".toList).head?.any Char.isAlpha = true :=
  macros_rejection_set.2.2.2.2 ("\x7b\x7b\x7bpoem(red,blue)\x7d\x7d\x7d".toList)
    ⟨"poem".toList, some "red,blue".toList⟩ [] (by decide)

/-- C7: the event traversal yields depth-first pre/post order: the
Start labels in order are exactly the pre-order node sequence and the
End labels the post-order sequence (so every node contributes exactly
one Start and one End), the Start/End nesting is balanced as a Dyck
path from depth 0, a leaf's Start is immediately followed by its End,
and a container's Start is followed by its children's events in
document order before its End. -/
theorem traversal_event_invariants :
    ∀ (α : Type) (t : OrgTree α),
      startsOf (traverse t) = preorder t ∧
      stopsOf (traverse t) = postorder t ∧
      balancedFrom (traverse t) 0 = true ∧
      (∀ a : α, traverse (OrgTree.node a []) = [OrgEvent.start a, OrgEvent.stop a]) ∧
      (∀ (a : α) (cs : List (OrgTree α)),
        traverse (OrgTree.node a cs) =
          OrgEvent.start a :: (traverseList cs ++ [OrgEvent.stop a])) := by
  intro α t
  refine ⟨startsOf_traverse t, stopsOf_traverse t, ?_, fun a => rfl, fun a cs => rfl⟩
  have h := balancedFrom_traverse t ([] : List (OrgEvent α)) 0
  simpa [balancedFrom] using h

/-- C8: both rendering drivers feed exactly the traversal's events, in
order, to the handler; the driving loop stops at the first handler
error and returns it (the remaining events are not delivered — the
result is fixed independently of them); the delivered events always
form a prefix of the traversal; and when no handler call can fail the
drivers return ok.  The tree is passed by value (shared reference in
the source) and is never modified, so it remains re-renderable. -/
theorem render_driver_contract :
    ∀ (α σ ε : Type) (hs he : σ → α → Except ε σ) (t : OrgTree α) (w : σ),
      html_with_handler hs he t w = foldEvents hs he (traverse t) w ∧
      org_with_handler hs he t w = html_with_handler hs he t w ∧
      (∀ (e : OrgEvent α) (es : List (OrgEvent α)) (w2 : σ) (err : ε),
        stepHandler hs he w2 e = .error err →
        foldEvents hs he (e :: es) w2 = .error err) ∧
      (∀ (es : List (OrgEvent α)) (w2 : σ),
        (foldEventsTrace hs he es w2).1 <+: es ∧
        (foldEventsTrace hs he es w2).2 = foldEvents hs he es w2) ∧
      ((∀ w2 a, (hs w2 a).isOk = true) → (∀ w2 a, (he w2 a).isOk = true) →
        (html_with_handler hs he t w).isOk = true) := by
  intro α σ ε hs he t w
  refine ⟨rfl, rfl, foldEvents_error hs he, foldEventsTrace_prefix hs he, ?_⟩
  intro h1 h2
  exact foldEvents_ok hs he h1 h2 (traverse t) w

/-- Witness for `render_driver_contract` with a concrete always-ok
handler on a leaf document. -/
theorem render_driver_contract_wit :
    (html_with_handler (fun (w : Nat) (_ : Nat) => (Except.ok w : Except Nat Nat))
      (fun (w : Nat) (_ : Nat) => (Except.ok w : Except Nat Nat))
      (OrgTree.node 0 []) 0).isOk = true :=
  (render_driver_contract Nat Nat Nat
      (fun w _ => (Except.ok w : Except Nat Nat))
      (fun w _ => (Except.ok w : Except Nat Nat))
      (OrgTree.node 0 []) 0).2.2.2.2
    (fun _ _ => rfl) (fun _ _ => rfl)

/-- C9: a well-formed macro with empty parentheses parses with
arguments `Some("")`, distinct from the absent-arguments `None`
produced without parentheses. -/
theorem macros_empty_arguments :
    macrosParse ("\x7b\x7b\x7bname()\x7d\x7d\x7d".toList) =
      some (⟨"name".toList, some []⟩, []) ∧
    macrosParse ("\x7b\x7b\x7bname\x7d\x7d\x7d".toList) =
      some (⟨"name".toList, none⟩, []) ∧
    (some ([] : List Char) ≠ (none : Option (List Char))) := by decide

/-- C10: on every successful `Macros::parse`, the name and the
arguments (when present) are verbatim contiguous substrings of the
original input: the parser never transforms the text it returns. -/
theorem macros_verbatim_slices :
    ∀ (s : List Char) (m : Macros) (rem : List Char),
      macrosParse s = some (m, rem) →
      m.name <:+: s ∧ ∀ a, m.arguments = some a → a <:+: s := by
  intro s m rem h
  obtain ⟨-, -, -, hbr⟩ := macrosParse_sound h
  rcases hbr with ⟨hargs, hrest⟩ | ⟨a, hargs, hrest, -⟩
  · constructor
    · rw [hrest]
      exact ⟨obrace3, cbrace3 ++ rem, by simp⟩
    · intro a ha
      rw [hargs] at ha
      simp at ha
  · constructor
    · rw [hrest]
      exact ⟨obrace3, '(' :: (a ++ (macrosTerm ++ rem)), by simp⟩
    · intro a' ha'
      rw [hargs] at ha'
      rw [Option.some_inj] at ha'
      subst ha'
      rw [hrest]
      exact ⟨obrace3 ++ (m.name ++ ['(']), macrosTerm ++ rem, by simp⟩

/-- Witness for `macros_verbatim_slices` at a concrete successful
parse. -/
theorem macros_verbatim_slices_wit :
    "author".toList <:+: "\x7b\x7b\x7bauthor\x7d\x7d\x7d".toList ∧
    ∀ a, (⟨"author".toList, none⟩ : Macros).arguments = some a →
      a <:+: "\x7b\x7b\x7bauthor\x7d\x7d\x7d".toList :=
  macros_verbatim_slices ("\x7b\x7b\x7bauthor\x7d\x7d\x7d".toList)
    ⟨"author".toList, none⟩ [] (by decide)

end Orgize
